import Mathlib

/-!
Verification of the Campaign Journey & Derived-View Engine.

The definitions below are a shallow embedding of the engine's source:
* `computeAggregates` / `buildCampaignPayload` embed the aggregate
  recomputation inside `handleSaveCampaign` (App component),
* `handleCompleteTask` embeds the toggle-completion action of the Tasks
  component,
* `allTasks` / `displayedTasks` embed the task projector of the Tasks
  component,
* `parseHistory` / `buildTimeline` / `timelineItems` embed the timeline
  reconstructor of the ContactDetailsPage component.

Modelling conventions:
* JavaScript timestamps and `Date` values are modelled as `Int` instants;
  `setDate(start.getDate() + day)` is day arithmetic, modelled as `start + day`.
* The float expression `Math.round((k / n) * 100)` is modelled exactly over
  `ℚ` (`Math.round x = ⌊x + 1/2⌋` for the non-negative operands that occur).
* `a || b` on strings is modelled by `jsOr` (undefined/null/"" are falsy).
* `Array.prototype.sort` is stable (ES2019); a comparator derived from a key
  is modelled by the stable insertion sort `stableSortBy` on that key.
* `localeCompare` is modelled as the code-point order on `String`
  (locale-specific collation is abstracted away).
-/

namespace ABM

/-- One step of a campaign journey.  The step record type is declared in the
application's shared types module; its fields are fixed by their uses in the
App, Tasks and ContactDetailsPage components: an id, an action kind (the
sentinel kind "Wait" marks a pure delay), a day offset, display texts, a
completion flag, an optional point value, an optional owner display name and
an optional target contact name. -/
structure JourneyStep where
  id : String
  type : String
  day : Int
  title : String
  description : String
  completed : Bool
  points : Option Int
  owner : Option String
  targetContactName : Option String
  deriving Repr, DecidableEq

/-- JavaScript `a || b` for an optional string `a`: `b` when `a` is
undefined, null or the empty string. -/
def jsOr : Option String → String → String
  | none, b => b
  | some s, b => if s = "" then b else s

/-- JavaScript `a || b` keeping the option (used for `full_name || email`,
whose result may itself be undefined). -/
def jsOrOpt : Option String → Option String → Option String
  | none, b => b
  | some s, b => if s = "" then b else some s

/-- JavaScript truthiness of an optional string. -/
def jsTruthy : Option String → Bool
  | none => false
  | some s => decide (s ≠ "")

/-- JavaScript `s.points || 0`: absent points count as 0 (and `0 || 0 = 0`,
so present points pass through unchanged). -/
def pointsOrZero (s : JourneyStep) : Int := s.points.getD 0

/-- JS `Math.round x = ⌊x + 1/2⌋` (round half toward +∞); on the
non-negative operands occurring here this is also round half away from
zero. -/
def mathRound (q : ℚ) : Int := ⌊q + 1/2⌋

/-- Rounding half away from zero, exactly as the specification words it. -/
def roundHalfAwayFromZero (q : ℚ) : Int :=
  if 0 ≤ q then ⌊q + 1/2⌋ else ⌈q - 1/2⌉

/-- The three aggregate fields recomputed on every campaign save. -/
structure Aggregates where
  sent : Nat
  totalPoints : Int
  progress : Int
  deriving Repr, DecidableEq

/-- The aggregate recomputation of `handleSaveCampaign`: `sentCount`,
`calculatedPoints` and `calculatedProgress` as computed from the step list
(guarded by `campaign.steps && campaign.steps.length > 0`, all three default
to 0 on an empty list). -/
def computeAggregates (steps : List JourneyStep) : Aggregates :=
  if 0 < steps.length then
    let activeSteps := steps.filter (fun s => s.type != "Wait")
    let totalSteps := activeSteps.length
    let completedSteps := (activeSteps.filter (fun s => s.completed)).length
    let calculatedPoints :=
      steps.foldl (fun acc s => if s.completed then acc + pointsOrZero s else acc) 0
    let calculatedProgress : Int :=
      if 0 < totalSteps then mathRound ((completedSteps : ℚ) / (totalSteps : ℚ) * 100)
      else 0
    ⟨completedSteps, calculatedPoints, calculatedProgress⟩
  else ⟨0, 0, 0⟩

/-- The campaign value handed to `handleSaveCampaign` (fields as mapped by
the App component; the `open` rate field is called `openRate` here because
`open` is a reserved word in Lean). -/
structure CampaignData where
  id : Option String
  name : String
  targetCompany : Option String
  objective : Option String
  status : Option String
  openRate : Option String
  steps : List JourneyStep
  created_at : Option String
  deriving Repr, DecidableEq

/-- The row payload `handleSaveCampaign` upserts into the campaigns
collection. -/
structure CampaignPayload where
  name : String
  target_company : Option String
  objective : Option String
  status : String
  progress : Int
  sent : Nat
  open_rate : String
  total_points : Int
  user_id : String
  steps : List JourneyStep
  updated_at : String
  created_at : String
  deriving Repr, DecidableEq

/-- The payload construction of `handleSaveCampaign`: aggregates are
recomputed from the step list, `updated_at` is stamped with the save time,
and `created_at` is kept from the incoming record when truthy, else stamped
with the save time. -/
def buildCampaignPayload (campaign : CampaignData) (userId now : String) :
    CampaignPayload :=
  let a := computeAggregates campaign.steps
  { name := campaign.name
    target_company := campaign.targetCompany
    objective := campaign.objective
    status := jsOr campaign.status "Active"
    progress := a.progress
    sent := a.sent
    open_rate := jsOr campaign.openRate "0%"
    total_points := a.totalPoints
    user_id := userId
    steps := campaign.steps
    updated_at := now
    created_at := jsOr campaign.created_at now }

/-- A persisted campaign row as the toggle-completion action sees it (dates
modelled as `Int` instants). -/
structure CampaignRecord where
  id : String
  name : String
  target_company : Option String
  status : Option String
  steps : List JourneyStep
  progress : Int
  sent : Nat
  total_points : Int
  created_at : Option Int
  updated_at : Int
  deriving Repr, DecidableEq

/-- The step-list rewrite of `handleCompleteTask`: flip `completed` on every
step whose id equals the toggled task's id, keep all other steps as they
are. -/
def toggleMatching (steps : List JourneyStep) (taskId : String) :
    List JourneyStep :=
  steps.map (fun s => if s.id = taskId then { s with completed := !s.completed } else s)

/-- The toggle-completion action of the Tasks component: rewrite the step
list, recompute progress (over non-Wait steps), sent count and total points,
and write exactly the columns steps, progress, sent, total_points and
updated_at back to the row. -/
def handleCompleteTask (c : CampaignRecord) (taskId : String) (now : Int) :
    CampaignRecord :=
  let updatedSteps := toggleMatching c.steps taskId
  let activeSteps := updatedSteps.filter (fun s => s.type != "Wait")
  let totalSteps := activeSteps.length
  let completedSteps := (activeSteps.filter (fun s => s.completed)).length
  let progress : Int :=
    if 0 < totalSteps then mathRound ((completedSteps : ℚ) / (totalSteps : ℚ) * 100)
    else 0
  let totalPoints :=
    updatedSteps.foldl (fun acc s => if s.completed then acc + pointsOrZero s else acc) 0
  { c with
      steps := updatedSteps
      progress := progress
      sent := completedSteps
      total_points := totalPoints
      updated_at := now }

/-- A user profile row, as read by the Tasks component. -/
structure UserProfile where
  full_name : Option String
  email : Option String
  deriving Repr, DecidableEq

/-- The viewer identity of the Tasks component:
`currentUserProfile?.full_name || currentUserProfile?.email`. -/
def currentUserName (p : Option UserProfile) : Option String :=
  match p with
  | none => none
  | some prof => jsOrOpt prof.full_name prof.email

/-- A campaign as mapped by the Tasks component's fetch. -/
structure TaskCampaign where
  id : Option String
  name : String
  targetCompany : Option String
  status : Option String
  steps : List JourneyStep
  created_at : Option Int
  deriving Repr, DecidableEq

/-- A flattened task of the task projector. -/
structure FlatTask where
  id : String
  type : String
  title : String
  description : String
  date : Int
  completed : Bool
  campaignId : String
  campaignName : String
  companyName : String
  owner : String
  targetContactName : Option String
  points : Option Int
  deriving Repr, DecidableEq

/-- The task record pushed by the projector for one step of one campaign. -/
def mkFlatTask (camp : TaskCampaign) (startDate : Int) (step : JourneyStep) :
    FlatTask :=
  { id := step.id
    type := step.type
    title := step.title
    description := step.description
    date := startDate + step.day
    completed := step.completed
    campaignId := jsOr camp.id ""
    campaignName := camp.name
    companyName := jsOr camp.targetCompany ""
    owner := jsOr step.owner "Não atribuído"
    targetContactName := step.targetContactName
    points := step.points }

/-- The flattening pass of the task projector (`allTasks`): for every
campaign, for every step that is not a Wait step and whose owner equals the
viewer identity exactly, emit one task due at campaign start (defaulting to
now when the campaign has no creation timestamp) plus the step's day
offset. -/
def allTasks (campaigns : List TaskCampaign) (profile : Option UserProfile)
    (now : Int) : List FlatTask :=
  campaigns.flatMap (fun camp =>
    let startDate := camp.created_at.getD now
    camp.steps.filterMap (fun step =>
      if step.type ≠ "Wait" ∧ step.owner = currentUserName profile then
        some (mkFlatTask camp startDate step)
      else none))

/-- The status filter configuration of the Tasks component. -/
inductive TaskFilter
  | all
  | pending
  | completed
  deriving Repr, DecidableEq

/-- The sort configuration of the Tasks component. -/
inductive SortMethod
  | date
  | recipient
  deriving Repr, DecidableEq

/-- The status filter predicate of `displayedTasks`. -/
def statusFilter (f : TaskFilter) (t : FlatTask) : Bool :=
  match f with
  | .pending => !t.completed
  | .completed => t.completed
  | .all => true

/-- The recipient sort key of `displayedTasks`:
`a.targetContactName || a.companyName || ''`. -/
def recipientName (t : FlatTask) : String :=
  jsOr t.targetContactName (jsOr (some t.companyName) "")

/-- Stable insertion (ascending by key): the new element goes in front of
the first element whose key is not smaller, so earlier elements win ties. -/
def stableInsert {α κ : Type} [LinearOrder κ] (key : α → κ) (x : α) :
    List α → List α
  | [] => [x]
  | y :: ys => if key x ≤ key y then x :: y :: ys else y :: stableInsert key x ys

/-- Stable sort ascending by key; extensionally equal to any stable sort
under a comparator that is a total preorder on the key, hence a faithful
model of JS `Array.prototype.sort` with a key-difference comparator. -/
def stableSortBy {α κ : Type} [LinearOrder κ] (key : α → κ) :
    List α → List α
  | [] => []
  | x :: xs => stableInsert key x (stableSortBy key xs)

/-- The filter-then-sort pipeline of `displayedTasks`: the date sort uses
the comparator `a.date - b.date` (ascending by due date), the recipient sort
uses `localeCompare` on the recipient name (modelled as the code-point order
on strings). -/
def displayedTasks (campaigns : List TaskCampaign) (profile : Option UserProfile)
    (now : Int) (f : TaskFilter) (sm : SortMethod) : List FlatTask :=
  let filtered := (allTasks campaigns profile now).filter (statusFilter f)
  match sm with
  | .date => stableSortBy (fun t => t.date) filtered
  | .recipient => stableSortBy recipientName filtered

/-- A contact, with the fields the timeline reconstructor and the contact
save path read: display name, current company and the free-text notes
field that doubles as the history log. -/
structure Contact where
  name : String
  company : Option String
  notes : String
  deriving Repr, DecidableEq

/-- The history line appended by the contact save path on a company change:
a newline, the tag, the ISO date, a closing bracket and space, and the
move message. -/
def appendCompanyChange (notes dateStr oldCompany newCompany : String) : String :=
  notes ++ "\n[HISTORY:MOVED:" ++ dateStr ++ "] Mudou da empresa " ++
    oldCompany ++ " para " ++ newCompany

/-- The notes rewrite of the contact save path (`handleSave`): when both the
last-saved company and the newly edited company are truthy and differ, the
history line is appended to the notes; otherwise the notes are left as they
are. -/
def updatedNotesOnSave (savedCompany newCompany : Option String)
    (notes dateStr : String) : String :=
  if jsTruthy savedCompany = true ∧ jsTruthy newCompany = true ∧
      savedCompany ≠ newCompany then
    appendCompanyChange notes dateStr (savedCompany.getD "") (newCompany.getD "")
  else notes

/-- The literal tag scanned for by the timeline reconstructor. -/
def histTag : List Char := "[HISTORY:MOVED:".toList

/-- Match a literal character sequence at the head of the input, returning
the remainder on success. -/
def dropLit : List Char → List Char → Option (List Char)
  | [], cs => some cs
  | _ :: _, [] => none
  | t :: ts, c :: cs => if c = t then dropLit ts cs else none

/-- The lazy group of the history tag grammar: split the line remainder at
the first occurrence of the two characters close-bracket space, returning
the text before (the captured date) and after (the captured message). -/
def splitBS : List Char → Option (List Char × List Char)
  | [] => none
  | [_] => none
  | c :: c2 :: rest =>
    if c = ']' ∧ c2 = ' ' then some ([], rest)
    else
      match splitBS (c2 :: rest) with
      | some (a, b) => some (c :: a, b)
      | none => none

/-- Scan one line left to right for the first position where the whole tag
grammar matches: the literal tag followed somewhere later in the line by a
close-bracket and a space.  Returns the captured (date, message) pair of
that first match.  This is the positional semantics of the global regex of
the timeline reconstructor restricted to a single line (dot does not match
a newline, and a successful match consumes the rest of the line, so each
line yields at most its first match). -/
def findHist : List Char → Option (List Char × List Char)
  | [] => none
  | c :: rest =>
    match dropLit histTag (c :: rest) with
    | some rem =>
      match splitBS rem with
      | some (d, m) => some (d, m)
      | none => findHist rest
    | none => findHist rest

/-- Split a character list at newlines (the segments the regex dot can range
over). -/
def splitNl : List Char → List (List Char)
  | [] => [[]]
  | c :: rest =>
    if c = '\n' then [] :: splitNl rest
    else
      match splitNl rest with
      | [] => [[c]]
      | l :: ls => (c :: l) :: ls

/-- The history scan of the timeline reconstructor: every match of the tag
grammar in the notes text, as (date string, message) pairs in text order. -/
def parseHistory (notes : String) : List (String × String) :=
  (splitNl notes.data).filterMap (fun line =>
    (findHist line).map (fun dm => (String.mk dm.1, String.mk dm.2)))

/-- A campaign related to a contact, as mapped by the ContactDetailsPage
fetch (rows are fetched from the store, so the id is present). -/
structure RelatedCampaign where
  id : String
  name : String
  status : Option String
  created_at : Option Int
  objective : String
  steps : List JourneyStep
  deriving Repr, DecidableEq

/-- One event of the contact timeline. -/
structure TimelineItem where
  id : String
  type : String
  date : Int
  title : String
  description : String
  icon : String
  color : String
  deriving Repr, DecidableEq

/-- The unsorted event feed of the timeline reconstructor: one synthetic
creation event dated now, then per related campaign one joined event at the
campaign start plus one completed-task event for every completed step whose
target is empty or equals the contact's name, then one company-change event
per history match in the notes, dated by parsing the embedded ISO date
(`parseDate` abstracts the JS Date constructor on strings). -/
def buildTimeline (contact : Contact) (campaigns : List RelatedCampaign)
    (now : Int) (parseDate : String → Int) : List TimelineItem :=
  let creation : TimelineItem :=
    ⟨"creation", "creation", now, "Contato Criado", "Adicionado à plataforma",
      "person_add", "bg-slate-200 text-slate-600"⟩
  let campaignItems := campaigns.flatMap (fun camp =>
    let startDate := camp.created_at.getD now
    let joined : TimelineItem :=
      ⟨"camp-" ++ camp.id, "campaign", startDate,
        "Ingressou na Campanha: " ++ camp.name, "Objetivo: " ++ camp.objective,
        "rocket_launch", "bg-blue-100 text-blue-600"⟩
    let stepItems := camp.steps.filterMap (fun step =>
      if step.completed = true ∧
          (step.targetContactName = none ∨ step.targetContactName = some "" ∨
            step.targetContactName = some contact.name) then
        some ⟨"task-" ++ step.id, "campaign", startDate + step.day,
          "Tarefa Concluída: " ++ step.title,
          "Executado por: " ++ jsOr step.owner "Sistema",
          "check_circle", "bg-green-100 text-green-600"⟩
      else none)
    joined :: stepItems)
  let histItems :=
    if contact.notes ≠ "" then
      (parseHistory contact.notes).map (fun dm =>
        ⟨"hist-" ++ dm.1, "job_change", parseDate dm.1, "Mudança de Empresa",
          dm.2, "domain_disabled", "bg-orange-100 text-orange-600"⟩)
    else []
  creation :: (campaignItems ++ histItems)

/-- The timeline of the ContactDetailsPage: the event feed sorted with the
stable JS sort under the comparator `b.date - a.date`, i.e. stably ascending
on the negated date. -/
def timelineItems (contact : Contact) (campaigns : List RelatedCampaign)
    (now : Int) (parseDate : String → Int) : List TimelineItem :=
  stableSortBy (fun item => -item.date)
    (buildTimeline contact campaigns now parseDate)

/-- The active (non-Wait) steps of a step list, as both aggregate
recomputations filter them. -/
def activeOf (steps : List JourneyStep) : List JourneyStep :=
  steps.filter (fun s => s.type != "Wait")

/-- The completed active steps of a step list. -/
def completedActiveOf (steps : List JourneyStep) : List JourneyStep :=
  (activeOf steps).filter (fun s => s.completed)

/-- The specification's totalPoints formula: the sum of the points of every
completed step, of every kind (Wait included), absent points counting 0;
stated from the spec's words to compare the code's fold against. -/
def specTotalPoints (steps : List JourneyStep) : Int :=
  ((steps.filter (fun s => s.completed)).map pointsOrZero).sum

/-- Example step: a completed Email worth 10 points (spec §8 example). -/
def exEmail : JourneyStep :=
  ⟨"s1", "Email", 2, "Primeiro contato", "", true, some 10, some "Ana Silva", none⟩

/-- Example step: a completed Wait worth 5 points (spec §8 example). -/
def exWait : JourneyStep :=
  ⟨"s2", "Wait", 5, "Aguardar", "", true, some 5, none, none⟩

/-- Example step: an uncompleted call worth 0 points (spec §8 example). -/
def exCall : JourneyStep :=
  ⟨"s3", "Ligação", 7, "Ligar", "", false, some 0, some "Ana Silva", none⟩

/-- The three-step example list of spec §8. -/
def exSteps : List JourneyStep := [exEmail, exWait, exCall]

/-- A step list whose only step is a completed Wait step. -/
def exWaitOnly : List JourneyStep := [exWait]

/-- A campaign record over the example steps whose cached aggregates satisfy
the derived-field invariant of spec §3. -/
def exRecord : CampaignRecord :=
  { id := "c1"
    name := "Campanha ACME"
    target_company := some "ACME"
    status := some "Active"
    steps := exSteps
    progress := (computeAggregates exSteps).progress
    sent := (computeAggregates exSteps).sent
    total_points := (computeAggregates exSteps).totalPoints
    created_at := some 100
    updated_at := 100 }

/-- An example campaign value carrying no creation timestamp (a new
campaign). -/
def exCampNew : CampaignData :=
  ⟨none, "Nova", some "ACME", some "Obj", none, none, exSteps, none⟩

/-- An example campaign value carrying a creation timestamp (an update). -/
def exCampUpd : CampaignData :=
  ⟨some "c1", "Antiga", some "ACME", some "Obj", some "Active", some "10%",
    exSteps, some "2024-01-01T00:00:00.000Z"⟩

/-- An example viewer profile whose full name is present. -/
def exProfile : UserProfile := ⟨some "Ana Silva", some "ana@exemplo.com"⟩

/-- An example campaign as the Tasks component maps it. -/
def exTaskCampaign : TaskCampaign :=
  ⟨some "c1", "Campanha ACME", some "ACME", some "Active", exSteps, some 100⟩

/-! ### Helper lemmas -/

/-- The points fold of both aggregate recomputations is the spec's sum of
points over completed steps. -/
theorem foldl_points_eq (steps : List JourneyStep) (init : Int) :
    steps.foldl (fun acc s => if s.completed then acc + pointsOrZero s else acc)
        init = init + specTotalPoints steps := by
  induction steps generalizing init with
  | nil => simp [specTotalPoints]
  | cons s rest ih =>
    by_cases h : s.completed <;>
      simp [specTotalPoints, List.filter_cons, h, ih, add_assoc]

/-- The empty-list guard of `handleSaveCampaign` is redundant: the aggregate
computation in unguarded form. -/
theorem computeAggregates_eq (steps : List JourneyStep) :
    computeAggregates steps =
      ⟨(completedActiveOf steps).length,
        steps.foldl (fun acc s => if s.completed then acc + pointsOrZero s else acc) 0,
        if 0 < (activeOf steps).length then
          mathRound (((completedActiveOf steps).length : ℚ) /
            ((activeOf steps).length : ℚ) * 100)
        else 0⟩ := by
  unfold computeAggregates activeOf completedActiveOf
  split
  · rfl
  · rename_i h
    have hnil : steps = [] := by
      cases steps with
      | nil => rfl
      | cons a l => simp at h
    subst hnil
    rfl

/-- The toggle-completion action in closed form: the toggled step list plus
the aggregates recomputed from it, the timestamp refreshed, all other fields
copied. -/
theorem handleCompleteTask_eq (c : CampaignRecord) (taskId : String) (now : Int) :
    handleCompleteTask c taskId now =
      { c with
          steps := toggleMatching c.steps taskId
          progress := (computeAggregates (toggleMatching c.steps taskId)).progress
          sent := (computeAggregates (toggleMatching c.steps taskId)).sent
          total_points := (computeAggregates (toggleMatching c.steps taskId)).totalPoints
          updated_at := now } := by
  rw [computeAggregates_eq]
  rfl

/-- Toggling the same task id twice rewrites the step list back to what it
was. -/
theorem toggleMatching_involutive (steps : List JourneyStep) (tid : String) :
    toggleMatching (toggleMatching steps tid) tid = steps := by
  unfold toggleMatching
  rw [List.map_map]
  have h : ∀ s ∈ steps,
      ((fun s : JourneyStep =>
          if s.id = tid then { s with completed := !s.completed } else s) ∘
        (fun s : JourneyStep =>
          if s.id = tid then { s with completed := !s.completed } else s)) s = s := by
    intro s _
    simp only [Function.comp]
    by_cases h : s.id = tid
    · have h2 : ({ s with completed := !s.completed } : JourneyStep).id = tid := h
      rw [if_pos h, if_pos h2]
      cases s
      simp
    · rw [if_neg h, if_neg h]
  rw [List.map_congr_left h]
  exact List.map_id steps

/-- The totalPoints computed on campaign save is the spec's sum. -/
theorem computeAggregates_totalPoints (steps : List JourneyStep) :
    (computeAggregates steps).totalPoints = specTotalPoints steps := by
  rw [computeAggregates_eq]
  show steps.foldl _ 0 = _
  rw [foldl_points_eq]
  exact zero_add _

/-! ### C2 -/

/-- C2: on campaign save and on task toggle alike, the computed totalPoints
is the sum of the points of every completed step of every kind — Wait steps
included, the sum is not filtered by kind — and uncompleted steps contribute
nothing. -/
theorem totalPoints_sums_all_completed_kinds (steps : List JourneyStep)
    (c : CampaignRecord) (taskId : String) (now : Int) :
    (computeAggregates steps).totalPoints = specTotalPoints steps ∧
    (handleCompleteTask c taskId now).total_points =
      specTotalPoints (toggleMatching c.steps taskId) := by
  refine ⟨computeAggregates_totalPoints steps, ?_⟩
  rw [handleCompleteTask_eq]
  exact computeAggregates_totalPoints (toggleMatching c.steps taskId)

/-! ### C10 -/

/-- C10: the points sum is total in the absence of a points value — a
completed step with absent points contributes exactly what the same step
with points 0 would — and whenever every present points value is
non-negative, the totalPoints written by campaign save and by task toggle
are non-negative. -/
theorem totalPoints_total_and_nonneg (steps : List JourneyStep)
    (c : CampaignRecord) (taskId : String) (now : Int)
    (hsteps : ∀ s ∈ steps, ∀ p, s.points = some p → 0 ≤ p)
    (hc : ∀ s ∈ c.steps, ∀ p, s.points = some p → 0 ≤ p) :
    (computeAggregates
        (steps.map (fun s =>
          if s.points = none then { s with points := some 0 } else s))).totalPoints =
      (computeAggregates steps).totalPoints ∧
    0 ≤ (computeAggregates steps).totalPoints ∧
    0 ≤ (handleCompleteTask c taskId now).total_points := by
  have hnn : ∀ (l : List JourneyStep),
      (∀ s ∈ l, ∀ p, s.points = some p → 0 ≤ p) → 0 ≤ specTotalPoints l := by
    intro l hl
    apply List.sum_nonneg
    intro x hx
    rcases List.mem_map.mp hx with ⟨s, hs, rfl⟩
    rcases hps : s.points with _ | p
    · simp [pointsOrZero, hps]
    · have := hl s (List.mem_of_mem_filter hs) p hps
      simpa [pointsOrZero, hps] using this
  have hmap : ∀ l : List JourneyStep,
      specTotalPoints
          (l.map (fun s =>
            if s.points = none then { s with points := some 0 } else s)) =
        specTotalPoints l := by
    intro l
    unfold specTotalPoints
    induction l with
    | nil => rfl
    | cons s rest ih =>
      by_cases h : s.completed <;> by_cases hp : s.points = none <;>
        simp [List.filter_cons, h, hp, pointsOrZero, ih]
  refine ⟨?_, ?_, ?_⟩
  · rw [computeAggregates_totalPoints, computeAggregates_totalPoints]
    exact hmap steps
  · rw [computeAggregates_totalPoints]
    exact hnn steps hsteps
  · rw [handleCompleteTask_eq]
    show 0 ≤ (computeAggregates (toggleMatching c.steps taskId)).totalPoints
    rw [computeAggregates_totalPoints]
    have hmem : ∀ s ∈ toggleMatching c.steps taskId, ∀ p, s.points = some p → 0 ≤ p := by
      intro s hs p hp
      rcases List.mem_map.mp hs with ⟨s0, hs0, rfl⟩
      by_cases h : s0.id = taskId
      · rw [if_pos h] at hp
        exact hc s0 hs0 p hp
      · rw [if_neg h] at hp
        exact hc s0 hs0 p hp
    exact hnn _ hmem

/-- Witness for C10 at emptyish concrete inputs: the example steps have only
non-negative points, so the computed totals are non-negative. -/
theorem totalPoints_total_and_nonneg_witness :
    (computeAggregates
        (exSteps.map (fun s =>
          if s.points = none then { s with points := some 0 } else s))).totalPoints =
      (computeAggregates exSteps).totalPoints ∧
    0 ≤ (computeAggregates exSteps).totalPoints ∧
    0 ≤ (handleCompleteTask exRecord "s1" 200).total_points :=
  totalPoints_total_and_nonneg exSteps exRecord "s1" 200
    (by decide) (by decide)

/-! ### C8 -/

/-- C8: on campaign save, a campaign with no prior creation timestamp has
created_at stamped with the save time; a campaign carrying one keeps it
unchanged in the written payload; updated_at is refreshed to the save time
in both cases. -/
theorem save_timestamps_spec (campaign : CampaignData) (userId now : String) :
    (buildCampaignPayload campaign userId now).updated_at = now ∧
    (campaign.created_at = none →
      (buildCampaignPayload campaign userId now).created_at = now) ∧
    (∀ s, campaign.created_at = some s → s ≠ "" →
      (buildCampaignPayload campaign userId now).created_at = s) := by
  refine ⟨rfl, ?_, ?_⟩
  · intro h
    simp [buildCampaignPayload, h, jsOr]
  · intro s hs hne
    simp [buildCampaignPayload, hs, jsOr, hne]

/-- Witness for C8: a new campaign gets the save time, an updating campaign
keeps its incoming timestamp, and both get the fresh updated_at. -/
theorem save_timestamps_spec_witness :
    (buildCampaignPayload exCampNew "u1" "2024-02-02T00:00:00.000Z").updated_at =
      "2024-02-02T00:00:00.000Z" ∧
    (buildCampaignPayload exCampNew "u1" "2024-02-02T00:00:00.000Z").created_at =
      "2024-02-02T00:00:00.000Z" ∧
    (buildCampaignPayload exCampUpd "u1" "2024-02-02T00:00:00.000Z").created_at =
      "2024-01-01T00:00:00.000Z" :=
  ⟨(save_timestamps_spec exCampNew "u1" "2024-02-02T00:00:00.000Z").1,
    (save_timestamps_spec exCampNew "u1" "2024-02-02T00:00:00.000Z").2.1 rfl,
    (save_timestamps_spec exCampUpd "u1" "2024-02-02T00:00:00.000Z").2.2
      "2024-01-01T00:00:00.000Z" rfl (by decide)⟩

/-! ### C4 -/

/-- C4: for a campaign whose cached aggregates satisfy the derived-field
invariant, applying the toggle-completion action twice to any step id
occurring in the step list returns the step list and the stored progress,
sent count and total points to their original values. -/
theorem toggle_twice_restores (c : CampaignRecord) (taskId : String)
    (n1 n2 : Int)
    (hid : taskId ∈ c.steps.map (fun s => s.id))
    (hpr : c.progress = (computeAggregates c.steps).progress)
    (hse : c.sent = (computeAggregates c.steps).sent)
    (hpt : c.total_points = (computeAggregates c.steps).totalPoints) :
    (handleCompleteTask (handleCompleteTask c taskId n1) taskId n2).steps = c.steps ∧
    (handleCompleteTask (handleCompleteTask c taskId n1) taskId n2).progress =
      c.progress ∧
    (handleCompleteTask (handleCompleteTask c taskId n1) taskId n2).sent = c.sent ∧
    (handleCompleteTask (handleCompleteTask c taskId n1) taskId n2).total_points =
      c.total_points := by
  rw [handleCompleteTask_eq, handleCompleteTask_eq]
  simp only [toggleMatching_involutive]
  exact ⟨trivial, hpr.symm, hse.symm, hpt.symm⟩

/-- Witness for C4 at the concrete example campaign record. -/
theorem toggle_twice_restores_witness :
    (handleCompleteTask (handleCompleteTask exRecord "s1" 200) "s1" 300).steps =
      exRecord.steps ∧
    (handleCompleteTask (handleCompleteTask exRecord "s1" 200) "s1" 300).progress =
      exRecord.progress ∧
    (handleCompleteTask (handleCompleteTask exRecord "s1" 200) "s1" 300).sent =
      exRecord.sent ∧
    (handleCompleteTask (handleCompleteTask exRecord "s1" 200) "s1" 300).total_points =
      exRecord.total_points :=
  toggle_twice_restores exRecord "s1" 200 300 (by decide) rfl rfl rfl

/-! ### C9 -/

/-- C9: the toggle-completion action on a campaign with unique step ids
leaves the campaign's name, status, target company and creation timestamp
untouched, writes only the recomputed aggregates, the rewritten step list
and the refreshed update timestamp, and within the step list flips exactly
the completed flag of the matching step, leaving every other step and every
other field of the matching step unchanged. -/
theorem toggle_frame_effect (c : CampaignRecord) (tid : String) (now : Int)
    (hnd : (c.steps.map (fun s => s.id)).Nodup) :
    (handleCompleteTask c tid now).name = c.name ∧
    (handleCompleteTask c tid now).status = c.status ∧
    (handleCompleteTask c tid now).target_company = c.target_company ∧
    (handleCompleteTask c tid now).created_at = c.created_at ∧
    (handleCompleteTask c tid now).id = c.id ∧
    (handleCompleteTask c tid now).updated_at = now ∧
    (handleCompleteTask c tid now).steps.length = c.steps.length ∧
    ∀ i (hi : i < c.steps.length) (hi' : i < (handleCompleteTask c tid now).steps.length),
      ((c.steps[i].id ≠ tid → (handleCompleteTask c tid now).steps[i] = c.steps[i]) ∧
        (c.steps[i].id = tid →
          (handleCompleteTask c tid now).steps[i].id = c.steps[i].id ∧
          (handleCompleteTask c tid now).steps[i].type = c.steps[i].type ∧
          (handleCompleteTask c tid now).steps[i].day = c.steps[i].day ∧
          (handleCompleteTask c tid now).steps[i].title = c.steps[i].title ∧
          (handleCompleteTask c tid now).steps[i].description = c.steps[i].description ∧
          (handleCompleteTask c tid now).steps[i].points = c.steps[i].points ∧
          (handleCompleteTask c tid now).steps[i].owner = c.steps[i].owner ∧
          (handleCompleteTask c tid now).steps[i].targetContactName =
            c.steps[i].targetContactName ∧
          (handleCompleteTask c tid now).steps[i].completed = !c.steps[i].completed)) := by
  simp only [handleCompleteTask_eq, toggleMatching, List.getElem_map, List.length_map]
  refine ⟨trivial, trivial, trivial, trivial, trivial, trivial, trivial, ?_⟩
  intro i hi hi'
  by_cases h : c.steps[i].id = tid
  · simp [h]
  · simp [h]

/-- Witness for C9: the example record has unique step ids; toggling step s2
keeps the frame fields, leaves step s1 unchanged and flips exactly the
completed flag of step s2. -/
theorem toggle_frame_effect_witness :
    (handleCompleteTask exRecord "s2" 200).name = exRecord.name ∧
    (handleCompleteTask exRecord "s2" 200).created_at = exRecord.created_at ∧
    (handleCompleteTask exRecord "s2" 200).steps.get ⟨0, by decide⟩ =
      exRecord.steps.get ⟨0, by decide⟩ ∧
    ((handleCompleteTask exRecord "s2" 200).steps.get ⟨1, by decide⟩).completed =
      !(exRecord.steps.get ⟨1, by decide⟩).completed := by
  have h := toggle_frame_effect exRecord "s2" 200 (by decide)
  refine ⟨h.1, h.2.2.2.1, ?_, ?_⟩
  · exact (h.2.2.2.2.2.2.2 0 (by decide) (by decide)).1 (by decide)
  · exact ((h.2.2.2.2.2.2.2 1 (by decide) (by decide)).2 (by decide)).2.2.2.2.2.2.2.2

/-! ### Stable sort lemmas -/

/-- Membership through a stable insertion. -/
theorem mem_stableInsert {α κ : Type} [LinearOrder κ] (key : α → κ) (x a : α)
    (l : List α) : a ∈ stableInsert key x l ↔ a = x ∨ a ∈ l := by
  induction l with
  | nil => simp [stableInsert]
  | cons y ys ih =>
    simp only [stableInsert]
    split
    · simp [List.mem_cons]
    · simp only [List.mem_cons, ih]
      tauto

/-- A stable insertion into a list sorted ascending by key stays sorted. -/
theorem pairwise_stableInsert {α κ : Type} [LinearOrder κ] (key : α → κ)
    (x : α) (l : List α) (hl : l.Pairwise (fun a b => key a ≤ key b)) :
    (stableInsert key x l).Pairwise (fun a b => key a ≤ key b) := by
  induction l with
  | nil => simp [stableInsert]
  | cons y ys ih =>
    rcases List.pairwise_cons.mp hl with ⟨hy, hys⟩
    simp only [stableInsert]
    split
    · rename_i hxy
      refine List.pairwise_cons.mpr ⟨?_, hl⟩
      intro b hb
      rcases List.mem_cons.mp hb with rfl | hb
      · exact hxy
      · exact le_trans hxy (hy b hb)
    · rename_i hxy
      push_neg at hxy
      refine List.pairwise_cons.mpr ⟨?_, ih hys⟩
      intro b hb
      rcases (mem_stableInsert key x b ys).mp hb with rfl | hb
      · exact le_of_lt hxy
      · exact hy b hb

/-- The stable sort is sorted ascending by key. -/
theorem pairwise_stableSortBy {α κ : Type} [LinearOrder κ] (key : α → κ)
    (l : List α) :
    (stableSortBy key l).Pairwise (fun a b => key a ≤ key b) := by
  induction l with
  | nil => exact List.Pairwise.nil
  | cons x xs ih => exact pairwise_stableInsert key x _ ih

/-- Membership through the stable sort. -/
theorem mem_stableSortBy {α κ : Type} [LinearOrder κ] (key : α → κ) (a : α)
    (l : List α) : a ∈ stableSortBy key l ↔ a ∈ l := by
  induction l with
  | nil => simp [stableSortBy]
  | cons x xs ih =>
    simp only [stableSortBy, mem_stableInsert, ih, List.mem_cons]

/-- Filtering with a predicate confined to one key class through a stable
insertion: the inserted element lands in front of the selected elements
already present, and other elements are unaffected. -/
theorem filter_stableInsert {α κ : Type} [LinearOrder κ] (key : α → κ)
    (x : α) (l : List α) (p : α → Bool) (k : κ)
    (hp : ∀ a, p a = true → key a = k) :
    (stableInsert key x l).filter p =
      if p x = true then x :: l.filter p else l.filter p := by
  induction l with
  | nil => by_cases hx : p x <;> simp [stableInsert, List.filter_cons, hx]
  | cons y ys ih =>
    simp only [stableInsert]
    split
    · rename_i hxy
      by_cases hx : p x <;> simp [List.filter_cons, hx]
    · rename_i hxy
      push_neg at hxy
      by_cases hx : p x
      · have hyk : ¬ p y = true := fun hy =>
          absurd ((hp y hy).trans (hp x hx).symm) (ne_of_lt hxy)
        simp [List.filter_cons, hyk, ih, hx]
      · by_cases hy : p y <;> simp [List.filter_cons, hy, ih, hx]

/-- Stability of the stable sort: for every predicate selecting elements of
a single key value, the selected subsequence of the sorted list is exactly
the selected subsequence of the unsorted list, in the same order. -/
theorem filter_stableSortBy {α κ : Type} [LinearOrder κ] (key : α → κ)
    (l : List α) (p : α → Bool) (k : κ)
    (hp : ∀ a, p a = true → key a = k) :
    (stableSortBy key l).filter p = l.filter p := by
  induction l with
  | nil => rfl
  | cons x xs ih =>
    simp only [stableSortBy]
    rw [filter_stableInsert key x _ p k hp]
    by_cases hx : p x <;> simp [List.filter_cons, hx, ih]

/-! ### Tag grammar lemmas -/

/-- String append is list append on the underlying character data. -/
theorem data_append (a b : String) : (a ++ b).data = a.data ++ b.data := rfl

/-- Characterwise equal strings are equal. -/
theorem string_eq_of_data (a b : String) (h : a.data = b.data) : a = b := by
  cases a
  cases b
  exact congrArg String.mk h

/-- The move message written on a company change. -/
def moveMessage (oldCompany newCompany : String) : String :=
  "Mudou da empresa " ++ oldCompany ++ " para " ++ newCompany

/-- Matching a literal at the head of the literal followed by a remainder
succeeds with that remainder. -/
theorem dropLit_append (ts rest : List Char) :
    dropLit ts (ts ++ rest) = some rest := by
  induction ts with
  | nil => rfl
  | cons t ts ih => simp [dropLit, ih]

/-- The unfolding equation of `splitBS` on two leading characters. -/
theorem splitBS_cons2 (c c2 : Char) (Y : List Char) :
    splitBS (c :: c2 :: Y) =
      if c = ']' ∧ c2 = ' ' then some ([], Y)
      else
        match splitBS (c2 :: Y) with
        | some (a, b) => some (c :: a, b)
        | none => none := rfl

/-- The lazy split finds the appended close-bracket-space first when the
captured part contains none. -/
theorem splitBS_append (d m : List Char) (hbs : splitBS d = none) :
    splitBS (d ++ ']' :: ' ' :: m) = some (d, m) := by
  induction d with
  | nil => rfl
  | cons c d' ih =>
    cases d' with
    | nil => simp [splitBS]
    | cons c2 rest =>
      rw [splitBS_cons2] at hbs
      rw [List.cons_append, List.cons_append, splitBS_cons2]
      by_cases hcond : c = ']' ∧ c2 = ' '
      · rw [if_pos hcond] at hbs
        exact absurd hbs (by simp)
      · rw [if_neg hcond] at hbs ⊢
        have hrec : splitBS (c2 :: rest) = none := by
          cases hrec2 : splitBS (c2 :: rest) with
          | none => rfl
          | some ab =>
            rw [hrec2] at hbs
            cases ab
            simp at hbs
        have hstep := ih hrec
        rw [List.cons_append] at hstep
        rw [hstep]

/-- The unfolding equation of `findHist` on a leading character. -/
theorem findHist_cons (c : Char) (rest : List Char) :
    findHist (c :: rest) =
      match dropLit histTag (c :: rest) with
      | some rem =>
        match splitBS rem with
        | some (d, m) => some (d, m)
        | none => findHist rest
      | none => findHist rest := rfl

/-- A line that starts with the history tag, continues with a date free of
the close-bracket-space pair and then the close bracket, space and message,
is matched at its head with exactly that date and message captured. -/
theorem findHist_head (d m : List Char) (hbs : splitBS d = none) :
    findHist (histTag ++ (d ++ ']' :: ' ' :: m)) = some (d, m) := by
  rw [show histTag ++ (d ++ ']' :: ' ' :: m) =
    '[' :: ("HISTORY:MOVED:".toList ++ (d ++ ']' :: ' ' :: m)) from rfl]
  rw [findHist_cons]
  rw [show ('[' :: ("HISTORY:MOVED:".toList ++ (d ++ ']' :: ' ' :: m))) =
    histTag ++ (d ++ ']' :: ' ' :: m) from rfl]
  simp only [dropLit_append, splitBS_append d m hbs]

/-- The unfolding equation of `splitNl` on a leading character. -/
theorem splitNl_cons (c : Char) (rest : List Char) :
    splitNl (c :: rest) =
      if c = '\n' then [] :: splitNl rest
      else
        match splitNl rest with
        | [] => [[c]]
        | l :: ls => (c :: l) :: ls := rfl

/-- The newline split never returns the empty list of segments. -/
theorem splitNl_ne_nil (cs : List Char) : splitNl cs ≠ [] := by
  cases cs with
  | nil => simp [splitNl]
  | cons c rest =>
    rw [splitNl_cons]
    by_cases hc : c = '\n'
    · simp [hc]
    · rw [if_neg hc]
      cases h : splitNl rest <;> simp

/-- Splitting at an explicit newline splits the two sides independently. -/
theorem splitNl_append (a b : List Char) :
    splitNl (a ++ '\n' :: b) = splitNl a ++ splitNl b := by
  induction a with
  | nil => rfl
  | cons c a' ih =>
    rw [List.cons_append, splitNl_cons, splitNl_cons]
    by_cases hc : c = '\n'
    · rw [if_pos hc, if_pos hc, ih]
      rfl
    · rw [if_neg hc, if_neg hc, ih]
      cases h : splitNl a' with
      | nil => exact absurd h (splitNl_ne_nil a')
      | cons l ls => rfl

/-- A newline-free character list is a single segment. -/
theorem splitNl_eq_single (cs : List Char) (h : '\n' ∉ cs) : splitNl cs = [cs] := by
  induction cs with
  | nil => rfl
  | cons c rest ih =>
    have hc : ¬ c = '\n' := fun hc => h (hc ▸ List.mem_cons_self c rest)
    have hr : '\n' ∉ rest := fun hr => h (List.mem_cons_of_mem c hr)
    rw [splitNl_cons, if_neg hc, ih hr]

/-! ### C5 -/

/-- C5: when a contact save detects a company change, exactly one history
line is appended after a newline at the end of the notes — the prior notes
text is the unchanged leading part of the result — and re-parsing the
resulting notes with the timeline reconstructor's tag grammar yields
exactly the prior parse plus one company-change event carrying the same
date string and the same move message. -/
theorem history_append_round_trip (notes dateStr oldC newC : String)
    (hbs : splitBS dateStr.data = none)
    (hd : '\n' ∉ dateStr.data)
    (ho : '\n' ∉ oldC.data) (hn : '\n' ∉ newC.data)
    (hoe : oldC ≠ "") (hne : newC ≠ "") (hdiff : oldC ≠ newC) :
    updatedNotesOnSave (some oldC) (some newC) notes dateStr =
      appendCompanyChange notes dateStr oldC newC ∧
    appendCompanyChange notes dateStr oldC newC =
      notes ++ ("\n[HISTORY:MOVED:" ++ dateStr ++ "] " ++ moveMessage oldC newC) ∧
    splitNl (appendCompanyChange notes dateStr oldC newC).data =
      splitNl notes.data ++
        [histTag ++ (dateStr.data ++ ']' :: ' ' :: (moveMessage oldC newC).data)] ∧
    parseHistory (appendCompanyChange notes dateStr oldC newC) =
      parseHistory notes ++ [(dateStr, moveMessage oldC newC)] := by
  have hmsg : (moveMessage oldC newC).data =
      ("Mudou da empresa " : String).data ++ oldC.data ++
        (" para " : String).data ++ newC.data := rfl
  have hdata : (appendCompanyChange notes dateStr oldC newC).data =
      notes.data ++
        '\n' :: (histTag ++ (dateStr.data ++ ']' :: ' ' :: (moveMessage oldC newC).data)) := by
    show (notes ++ "\n[HISTORY:MOVED:" ++ dateStr ++ "] Mudou da empresa " ++
        oldC ++ " para " ++ newC).data = _
    rw [hmsg]
    simp only [data_append, List.append_assoc, List.cons_append, histTag,
      String.toList]
  have hline_nonl :
      '\n' ∉ histTag ++ (dateStr.data ++ ']' :: ' ' :: (moveMessage oldC newC).data) := by
    have t1 : '\n' ∉ histTag := by decide
    have t2 : '\n' ∉ ("Mudou da empresa " : String).data := by decide
    have t3 : '\n' ∉ (" para " : String).data := by decide
    intro hmem
    rcases List.mem_append.mp hmem with h | h
    · exact t1 h
    rcases List.mem_append.mp h with h | h
    · exact hd h
    rcases List.mem_cons.mp h with h | h
    · exact absurd h (by decide)
    rcases List.mem_cons.mp h with h | h
    · exact absurd h (by decide)
    rw [hmsg] at h
    rcases List.mem_append.mp h with h | h
    · rcases List.mem_append.mp h with h | h
      · rcases List.mem_append.mp h with h | h
        · exact t2 h
        · exact ho h
      · exact t3 h
    · exact hn h
  have hsplit : splitNl (appendCompanyChange notes dateStr oldC newC).data =
      splitNl notes.data ++
        [histTag ++ (dateStr.data ++ ']' :: ' ' :: (moveMessage oldC newC).data)] := by
    rw [hdata, splitNl_append, splitNl_eq_single _ hline_nonl]
  refine ⟨?_, ?_, hsplit, ?_⟩
  · unfold updatedNotesOnSave
    rw [if_pos ⟨by simp [jsTruthy, hoe], by simp [jsTruthy, hne], by simp [hdiff]⟩]
    rfl
  · apply string_eq_of_data
    rw [hdata]
    show _ = (notes ++ ("\n[HISTORY:MOVED:" ++ dateStr ++ "] " ++
      ("Mudou da empresa " ++ oldC ++ " para " ++ newC))).data
    rw [show (moveMessage oldC newC).data = (("Mudou da empresa " : String) ++
      oldC ++ " para " ++ newC).data from rfl]
    simp only [data_append, List.append_assoc, List.cons_append,
      List.nil_append, histTag, String.toList]
  · unfold parseHistory
    rw [hsplit, List.filterMap_append]
    congr 1
    have hfind := findHist_head dateStr.data (moveMessage oldC newC).data hbs
    simp [List.filterMap, hfind]

/-- Witness for C5 at concrete notes, date and companies. -/
theorem history_append_round_trip_witness :
    parseHistory
        (appendCompanyChange "Cliente antigo." "2024-03-05T10:00:00.000Z"
          "ACME" "Globex") =
      parseHistory "Cliente antigo." ++
        [("2024-03-05T10:00:00.000Z", moveMessage "ACME" "Globex")] ∧
    appendCompanyChange "Cliente antigo." "2024-03-05T10:00:00.000Z"
        "ACME" "Globex" =
      "Cliente antigo." ++
        ("\n[HISTORY:MOVED:" ++ "2024-03-05T10:00:00.000Z" ++ "] " ++
          moveMessage "ACME" "Globex") := by
  have h := history_append_round_trip "Cliente antigo."
    "2024-03-05T10:00:00.000Z" "ACME" "Globex"
    (by decide) (by decide) (by decide) (by decide) (by decide) (by decide)
    (by decide)
  exact ⟨h.2.2.2, h.2.1⟩

/-! ### C1 -/

/-- C1: on campaign save, with n non-Wait steps of which k are completed,
the stored sent count is k and the stored progress is the percentage
100k/n rounded half away from zero, lying within 0 and 100; with no
non-Wait steps — however many Wait steps are completed — the stored sent
count and progress are 0. -/
theorem aggregator_progress_spec (steps : List JourneyStep) :
    ((activeOf steps).length = 0 →
      (computeAggregates steps).sent = 0 ∧
      (computeAggregates steps).progress = 0) ∧
    (0 < (activeOf steps).length →
      (computeAggregates steps).sent = (completedActiveOf steps).length ∧
      (computeAggregates steps).progress =
        roundHalfAwayFromZero
          ((100 * ((completedActiveOf steps).length : ℚ)) /
            ((activeOf steps).length : ℚ)) ∧
      0 ≤ (computeAggregates steps).progress ∧
      (computeAggregates steps).progress ≤ 100) := by
  rw [computeAggregates_eq]
  constructor
  · intro h0
    constructor
    · show (completedActiveOf steps).length = 0
      unfold completedActiveOf
      rw [List.length_eq_zero.mp h0]
      rfl
    · show (if 0 < (activeOf steps).length then
          mathRound (((completedActiveOf steps).length : ℚ) /
            ((activeOf steps).length : ℚ) * 100)
        else 0) = 0
      rw [if_neg (by omega)]
  · intro hpos
    have hkn : (completedActiveOf steps).length ≤ (activeOf steps).length :=
      List.length_filter_le _ _
    have hn : (0 : ℚ) < ((activeOf steps).length : ℚ) := by
      exact_mod_cast hpos
    have hq : (((completedActiveOf steps).length : ℚ) /
          ((activeOf steps).length : ℚ) * 100) =
        (100 * ((completedActiveOf steps).length : ℚ)) /
          ((activeOf steps).length : ℚ) := by
      ring
    have hq0 : (0 : ℚ) ≤ (100 * ((completedActiveOf steps).length : ℚ)) /
        ((activeOf steps).length : ℚ) := by positivity
    have hqle : (100 * ((completedActiveOf steps).length : ℚ)) /
        ((activeOf steps).length : ℚ) ≤ 100 := by
      rw [div_le_iff₀ hn]
      have : ((completedActiveOf steps).length : ℚ) ≤
          ((activeOf steps).length : ℚ) := by exact_mod_cast hkn
      nlinarith
    refine ⟨rfl, ?_, ?_, ?_⟩
    · show (if 0 < (activeOf steps).length then
          mathRound (((completedActiveOf steps).length : ℚ) /
            ((activeOf steps).length : ℚ) * 100)
        else 0) = _
      rw [if_pos hpos, hq]
      unfold mathRound roundHalfAwayFromZero
      rw [if_pos hq0]
    · show (0 : Int) ≤ (if 0 < (activeOf steps).length then
          mathRound (((completedActiveOf steps).length : ℚ) /
            ((activeOf steps).length : ℚ) * 100)
        else 0)
      rw [if_pos hpos, hq]
      unfold mathRound
      exact Int.le_floor.mpr (by push_cast; linarith)
    · show (if 0 < (activeOf steps).length then
          mathRound (((completedActiveOf steps).length : ℚ) /
            ((activeOf steps).length : ℚ) * 100)
        else 0) ≤ 100
      rw [if_pos hpos, hq]
      unfold mathRound
      have hlt : (100 * ((completedActiveOf steps).length : ℚ)) /
          ((activeOf steps).length : ℚ) + 1 / 2 < ((101 : Int) : ℚ) := by
        push_cast
        linarith
      have := Int.floor_lt.mpr hlt
      omega

/-- Witness for C1: the spec's worked example (one completed Email, one
completed Wait, one open call) and a Wait-only list. -/
theorem aggregator_progress_spec_witness :
    ((computeAggregates exSteps).sent = (completedActiveOf exSteps).length ∧
      (computeAggregates exSteps).progress =
        roundHalfAwayFromZero
          ((100 * ((completedActiveOf exSteps).length : ℚ)) /
            ((activeOf exSteps).length : ℚ)) ∧
      0 ≤ (computeAggregates exSteps).progress ∧
      (computeAggregates exSteps).progress ≤ 100) ∧
    ((computeAggregates exWaitOnly).sent = 0 ∧
      (computeAggregates exWaitOnly).progress = 0) :=
  ⟨(aggregator_progress_spec exSteps).2 (by decide),
    (aggregator_progress_spec exWaitOnly).1 (by decide)⟩

end ABM

namespace ABM

/-! ### C3 -/

/-- C3: with a defined viewer identity (the profile's full name when
present, else its email), every task the projector emits comes from a step
whose kind is not Wait and whose owner is exactly, case-sensitively, the
viewer identity; and the status filter of the displayed list keeps exactly
the uncompleted tasks under pending, exactly the completed tasks under
completed, and every task under all — exhaustively and disjointly. -/
theorem projector_ownership_and_status_filter
    (campaigns : List TaskCampaign) (profile : Option UserProfile) (now : Int)
    (ident : String) (h : currentUserName profile = some ident) :
    (∀ t ∈ allTasks campaigns profile now,
      ∃ camp ∈ campaigns, ∃ step ∈ camp.steps,
        step.type ≠ "Wait" ∧ step.owner = some ident ∧
        t = mkFlatTask camp (camp.created_at.getD now) step) ∧
    (∀ sm t, t ∈ displayedTasks campaigns profile now TaskFilter.pending sm ↔
      t ∈ allTasks campaigns profile now ∧ t.completed = false) ∧
    (∀ sm t, t ∈ displayedTasks campaigns profile now TaskFilter.completed sm ↔
      t ∈ allTasks campaigns profile now ∧ t.completed = true) ∧
    (∀ sm t, t ∈ displayedTasks campaigns profile now TaskFilter.all sm ↔
      t ∈ allTasks campaigns profile now) := by
  have hmem : ∀ (f : TaskFilter) (sm : SortMethod) (t : FlatTask),
      t ∈ displayedTasks campaigns profile now f sm ↔
        t ∈ allTasks campaigns profile now ∧ statusFilter f t = true := by
    intro f sm t
    cases sm <;> simp [displayedTasks, mem_stableSortBy, List.mem_filter]
  refine ⟨?_, ?_, ?_, ?_⟩
  · intro t ht
    simp only [allTasks] at ht
    rcases List.mem_flatMap.mp ht with ⟨camp, hc, ht2⟩
    rcases List.mem_filterMap.mp ht2 with ⟨step, hs, hstep⟩
    by_cases hcond : step.type ≠ "Wait" ∧ step.owner = currentUserName profile
    · rw [if_pos hcond] at hstep
      exact ⟨camp, hc, step, hs, hcond.1, h ▸ hcond.2,
        (Option.some.inj hstep).symm⟩
    · rw [if_neg hcond] at hstep
      exact absurd hstep (by simp)
  · intro sm t
    rw [hmem]
    simp [statusFilter]
  · intro sm t
    rw [hmem]
    simp [statusFilter]
  · intro sm t
    rw [hmem]
    simp [statusFilter]

/-- Witness for C3 at a concrete campaign list and profile: the Email task
of the example campaign is emitted, traced to its non-Wait step owned by
the viewer, and the completed filter characterizes its membership. -/
theorem projector_ownership_and_status_filter_witness :
    (∃ camp ∈ [exTaskCampaign], ∃ step ∈ camp.steps,
      step.type ≠ "Wait" ∧ step.owner = some "Ana Silva" ∧
      mkFlatTask exTaskCampaign 100 exEmail =
        mkFlatTask camp (camp.created_at.getD 0) step) ∧
    (mkFlatTask exTaskCampaign 100 exEmail ∈
        displayedTasks [exTaskCampaign] (some exProfile) 0 TaskFilter.completed
          SortMethod.date ↔
      mkFlatTask exTaskCampaign 100 exEmail ∈
          allTasks [exTaskCampaign] (some exProfile) 0 ∧
        (mkFlatTask exTaskCampaign 100 exEmail).completed = true) := by
  have h := projector_ownership_and_status_filter [exTaskCampaign]
    (some exProfile) 0 "Ana Silva" (by decide)
  exact ⟨h.1 _ (by decide), h.2.2.1 SortMethod.date _⟩

/-! ### C7 -/

/-- C7: the displayed task list sorted by date is stably ascending on the
computed due date (campaign start plus the step's day offset), the list
sorted by recipient is stably and lexicographically ascending on the step's
target name falling back to the campaign's target company name, and every
displayed task's due date is campaign start plus its step's day offset. -/
theorem displayed_tasks_sorting (campaigns : List TaskCampaign)
    (profile : Option UserProfile) (now : Int) (f : TaskFilter) :
    (displayedTasks campaigns profile now f SortMethod.date).Pairwise
        (fun a b => a.date ≤ b.date) ∧
    (∀ d : Int,
      (displayedTasks campaigns profile now f SortMethod.date).filter
          (fun t => t.date == d) =
        ((allTasks campaigns profile now).filter (statusFilter f)).filter
          (fun t => t.date == d)) ∧
    (displayedTasks campaigns profile now f SortMethod.recipient).Pairwise
        (fun a b => recipientName a ≤ recipientName b) ∧
    (∀ s : String,
      (displayedTasks campaigns profile now f SortMethod.recipient).filter
          (fun t => recipientName t == s) =
        ((allTasks campaigns profile now).filter (statusFilter f)).filter
          (fun t => recipientName t == s)) ∧
    (∀ sm, ∀ t ∈ displayedTasks campaigns profile now f sm,
      ∃ camp ∈ campaigns, ∃ step ∈ camp.steps,
        t.date = camp.created_at.getD now + step.day ∧
        t.targetContactName = step.targetContactName ∧
        t.companyName = jsOr camp.targetCompany "") := by
  refine ⟨pairwise_stableSortBy _ _,
    fun d => filter_stableSortBy (fun t : FlatTask => t.date) _ _ d
      (fun a ha => eq_of_beq ha),
    pairwise_stableSortBy _ _,
    fun s => filter_stableSortBy recipientName _ _ s
      (fun a ha => eq_of_beq ha), ?_⟩
  intro sm t ht
  have ht2 : t ∈ allTasks campaigns profile now ∧ statusFilter f t = true := by
    cases sm <;>
      simpa [displayedTasks, mem_stableSortBy, List.mem_filter] using ht
  have ht2 := ht2.1
  simp only [allTasks] at ht2
  rcases List.mem_flatMap.mp ht2 with ⟨camp, hc, ht3⟩
  rcases List.mem_filterMap.mp ht3 with ⟨step, hs, hstep⟩
  by_cases hcond : step.type ≠ "Wait" ∧ step.owner = currentUserName profile
  · rw [if_pos hcond] at hstep
    have := (Option.some.inj hstep)
    exact ⟨camp, hc, step, hs, this ▸ rfl, this ▸ rfl, this ▸ rfl⟩
  · rw [if_neg hcond] at hstep
    exact absurd hstep (by simp)

/-! ### C6 -/

/-- C6: the event list produced by the timeline reconstructor is sorted
descending by event date, and for every date the subsequence of events of
that date is the insertion-order subsequence of the unsorted feed (the sort
is stable). -/
theorem timeline_sorted_desc_stable (contact : Contact)
    (campaigns : List RelatedCampaign) (now : Int) (parseDate : String → Int) :
    (timelineItems contact campaigns now parseDate).Pairwise
        (fun a b => b.date ≤ a.date) ∧
    ∀ d : Int,
      (timelineItems contact campaigns now parseDate).filter
          (fun it => it.date == d) =
        (buildTimeline contact campaigns now parseDate).filter
          (fun it => it.date == d) := by
  constructor
  · have h := pairwise_stableSortBy (fun item : TimelineItem => -item.date)
      (buildTimeline contact campaigns now parseDate)
    exact h.imp fun hab => by omega
  · intro d
    exact filter_stableSortBy (fun item : TimelineItem => -item.date)
      (buildTimeline contact campaigns now parseDate)
      (fun it => it.date == d) (-d)
      (fun a ha => by
        show -a.date = -d
        rw [eq_of_beq ha])

end ABM
